import Mathlib

/-!
Verification of the documentation-extraction engine in `src/main.rs`.

The engine walks a parsed syntax tree of a Nix-like expression language,
decides which bindings form the documentable surface of a file, normalizes
their doc comments, recovers curried-function argument names, and resolves
indirection through `let`-bindings, identifier aliasing and `inherit`
clauses into a flat list of `ManualEntry` records.

The embedding below mirrors the functions of `src/main.rs` over an
inductive syntax tree.  The tree carries, for each node that can be
documented, the raw text of the doc comment attached immediately before it
(as an `Option String`), which is how the external tree adapter of the
program presents trivia-attached comments.  Helper functions that live in
the repository but outside `src/` (`comment::get_expr_docs`,
`format::handle_indentation`, `format::shift_headings`,
`commonmark::get_identifier`) are modelled from the specification and are
marked as such in their doc comments.

`resolve_let_ident` in the source is a recursion with no termination
guarantee (it follows identifier-aliasing chains with no visited set), so
its embedding takes an explicit fuel argument; a result of `Option.none`
at every fuel bound means the source recursion diverges on that input.
-/

/-! ## Character-level string utilities (kernel-computable) -/

/-- Split a list of characters at every occurrence of the separator
character; mirrors splitting a string on a one-character separator. -/
def splitCharAux (sep : Char) : List Char → List Char → List (List Char)
  | [], acc => [acc.reverse]
  | x :: xs, acc =>
    if x = sep then acc.reverse :: splitCharAux sep xs []
    else splitCharAux sep xs (x :: acc)

/-- Split on a separator character, e.g. into lines for `sep = newline`. -/
def splitChar (sep : Char) (l : List Char) : List (List Char) :=
  splitCharAux sep l []

/-- Join lines back together with a single newline between them. -/
def intercalateNl : List (List Char) → List Char
  | [] => []
  | [l] => l
  | l :: ls => l ++ '\n' :: intercalateNl ls

/-- A line is blank when it consists of whitespace only. -/
def isBlankLine (l : List Char) : Bool :=
  l.all Char.isWhitespace

/-- Number of leading space/tab characters of a line. -/
def leadingWsCount (l : List Char) : Nat :=
  (l.takeWhile fun c => c == ' ' || c == '\t').length

/-- Minimum of a list of naturals, `Option.none` on the empty list. -/
def minList : List Nat → Option Nat
  | [] => Option.none
  | n :: ns =>
    some (match minList ns with
      | Option.none => n
      | some m => Nat.min n m)

/-- Remove leading and trailing whitespace characters. -/
def trimChars (l : List Char) : List Char :=
  ((l.dropWhile Char.isWhitespace).reverse.dropWhile Char.isWhitespace).reverse

/-- Split a character list at every occurrence of two consecutive
newlines; this is the semantics of the source's `doc.split("\x22\n\n\x22")`
used to cut a doc comment into paragraphs: non-overlapping, leftmost
first, and the concatenation of the pieces interleaved with the separator
gives back the input. -/
def splitParas : List Char → List (List Char)
  | [] => [[]]
  | '\n' :: '\n' :: rest => [] :: splitParas rest
  | c :: rest =>
    match splitParas rest with
    | [] => [[c]]
    | p :: ps => (c :: p) :: ps

/-- Re-join paragraphs with a blank-line (double newline) separator. -/
def intercalateParas : List (List Char) → List Char
  | [] => []
  | [p] => p
  | p :: ps => p ++ '\n' :: '\n' :: intercalateParas ps

/-- String-level wrapper of `intercalateParas`: concatenate paragraphs
with blank-line separators. -/
def joinParas (ls : List String) : String :=
  String.mk (intercalateParas (ls.map String.data))

/-! ## Functions of the repository that are outside `src/`, modelled from
the spec -/

/-- Modelled from the spec: `comment::get_expr_docs` lives in
`comment.rs`, which is not under `src/`.  Per the spec, the tree adapter
supplies comments attached to the nodes they precede, and the comment
locator returns the doc comment immediately preceding a node (ordinary
comments are ignored); the embedding carries that attached raw
doc-comment text as an `Option String` on the node, which this function
returns. -/
def get_expr_docs (attachedDoc : Option String) : Option String :=
  attachedDoc

/-- Modelled from the spec: `format::handle_indentation` lives in
`format.rs`, which is not under `src/`.  Per the spec: compute the
minimum common leading whitespace over non-blank lines after the first,
strip exactly that amount from every line; an all-blank comment
normalizes to empty, returned here as `Option.none`. -/
def handle_indentation (raw : String) : Option String :=
  match splitChar '\n' raw.data with
  | [] => Option.none
  | first :: rest =>
    let ind := minList ((rest.filter fun l => !(isBlankLine l)).map leadingWsCount)
    let res := trimChars (intercalateNl (first :: rest.map fun l => l.drop (ind.getD 0)))
    if res.isEmpty then Option.none else some (String.mk res)

/-- Modelled from the spec: one line of the heading shift — a Markdown
heading line (leading hash marks) is shifted down by the given amount,
capped at the format's maximum level 6; other lines are untouched. -/
def shiftLine (amount : Nat) (l : List Char) : List Char :=
  let hashes := (l.takeWhile fun c => c == '#').length
  if hashes = 0 then l
  else List.replicate (Nat.min (hashes + amount) 6) '#' ++ l.drop hashes

/-- Modelled from the spec: `format::shift_headings` lives in
`format.rs`, which is not under `src/`.  Headings in the body are
shifted down by a caller-supplied amount, capped at the maximum level. -/
def shift_headings (s : String) (amount : Nat) : String :=
  String.mk (intercalateNl ((splitChar '\n' s.data).map (shiftLine amount)))

/-- Modelled from the spec: `commonmark::get_identifier` lives in
`commonmark.rs`, which is not under `src/`.  Anchors are derived
deterministically from prefix, category and name; the spec's end-to-end
example shows the form `lib.math.add`. -/
def get_identifier (pfx category name : String) : String :=
  pfx ++ "." ++ category ++ "." ++ name

/-! ## Data model (`src/main.rs`) -/

/-- `DocComment` of `src/main.rs`: the primary documentation string. -/
structure DocComment where
  doc : String
deriving DecidableEq

/-- `SingleArg` of `commonmark.rs` as used by `src/main.rs`: one named
parameter with its optional doc. -/
structure SingleArg where
  name : String
  doc : Option String
deriving DecidableEq

/-- `Argument` of `commonmark.rs` as used by `src/main.rs`: a flat named
parameter or a destructured pattern of named fields. -/
inductive Argument where
  | flat (arg : SingleArg)
  | pattern (entries : List SingleArg)
deriving DecidableEq

/-- `DocItem` of `src/main.rs`: transient record for one candidate
binding. -/
structure DocItem where
  name : String
  comment : DocComment
  args : List Argument
deriving DecidableEq

/-- `ManualEntry` of `commonmark.rs` as populated by `src/main.rs`.  The
source fields `prefix` and `example` are named `pfx` and `exmpl` here
(reserved words in this development). -/
structure ManualEntry where
  pfx : String
  category : String
  name : String
  location : Option String
  description : List String
  fn_type : Option String
  exmpl : Option String
  args : List Argument
deriving DecidableEq

/-! ## Syntax tree

The fragment of the rnix syntax tree that the engine of `src/main.rs`
inspects: identifiers, opaque literal leaves, function application,
lambdas with identifier or pattern parameters (pattern entries may carry
default expressions — those live inside the `NODE_PATTERN` subtree),
let-in expressions whose direct children are attrpath-value bindings or
inherit clauses, and attribute sets whose direct children are
attrpath-value bindings or inherit clauses (bare or sourced).  Nodes that
can carry a doc comment carry its raw text as an `Option String`. -/

/-- An attribute inside an `inherit` clause: the engine only acts on
plain identifiers (`Attr::Ident`); anything else is ignored. -/
inductive InhAttr where
  | ident (name : String)
  | other (s : String)
deriving DecidableEq

mutual

inductive Expr where
  | ident (name : String)
  | lit (s : String)
  | app (fn arg : Expr)
  | lambda (p : Param) (body : Expr)
  | letIn (bindings : LetBindings) (body : Expr)
  | attrSet (children : AttrChildren)

inductive Param where
  | identParam (name : String) (doc : Option String)
  | pattern (entries : PatEntries)

inductive PatEntries where
  | nil
  | cons (name : String) (doc : Option String) (dflt : OptExpr) (rest : PatEntries)

inductive OptExpr where
  | noneE
  | someE (e : Expr)

inductive LetBindings where
  | nil
  | consAttrpathValue (path : String) (doc : Option String) (value : Expr)
      (rest : LetBindings)
  | consInherit (src : OptExpr) (rest : LetBindings)

inductive AttrChildren where
  | nil
  | cons (c : AttrChild) (rest : AttrChildren)

inductive AttrChild where
  | attrpathValue (path : String) (doc : Option String) (value : Expr)
  | inheritChild (src : OptExpr) (attrs : List InhAttr)

end

/-! ## The engine of `src/main.rs` -/

/-- `retrieve_doc_comment` (main.rs:157): return the attached doc
comment, re-indented and with its headings shifted by the given amount
(default 2).  Note the source maps over the located comment and replaces
a blank normalization result by the empty string. -/
def retrieve_doc_comment (attachedDoc : Option String) (shiftHeadingsBy : Option Nat) :
    Option String :=
  (get_expr_docs attachedDoc).map fun dc =>
    shift_headings ((handle_indentation dc).getD "") (shiftHeadingsBy.getD 2)

/-- The `Argument` built for one lambda parameter, as in the loop body of
`collect_lambda_args` (main.rs:176): an identifier parameter becomes
`Flat`, a pattern parameter becomes `Pattern` with one `SingleArg` per
field. -/
def patternArgs : PatEntries → List SingleArg
  | .nil => []
  | .cons name doc _ rest =>
    ⟨name, handle_indentation ((retrieve_doc_comment doc (some 1)).getD "")⟩
      :: patternArgs rest

/-- One parameter position of `collect_lambda_args` (main.rs:176-198). -/
def lambdaArg : Param → Argument
  | .identParam name doc =>
    .flat ⟨name, handle_indentation ((retrieve_doc_comment doc (some 1)).getD "")⟩
  | .pattern es => .pattern (patternArgs es)

/-- `collect_lambda_args` (main.rs:172): traverse directly chained
lambdas and collect one `Argument` per parameter, outermost first; the
loop stops when the body is no longer a lambda. -/
def collect_lambda_args : Param → Expr → List Argument
  | p, .lambda p2 b2 => lambdaArg p :: collect_lambda_args p2 b2
  | p, _ => [lambdaArg p]

/-- `retrieve_doc_item` (main.rs:211): an attrpath-value node becomes a
`DocItem` exactly when `retrieve_doc_comment` yields a comment for it. -/
def retrieve_doc_item (path : String) (doc : Option String) : Option DocItem :=
  (retrieve_doc_comment doc (some 2)).map fun dc =>
    { name := path, comment := ⟨dc⟩, args := [] }

/-- `collect_entry_information` (main.rs:261): build the `DocItem` of a
binding and, when its value is a lambda, attach the collected argument
list. -/
def collect_entry_information (path : String) (doc : Option String) (value : Expr) :
    Option DocItem :=
  match retrieve_doc_item path doc with
  | Option.none => Option.none
  | some di =>
    match value with
    | .lambda p body => some { di with args := collect_lambda_args p body }
    | _ => some di

/-- `DocItem::into_entry` (main.rs:225): the description is the comment
body split on blank lines (`split("\x22\n\n\x22")` in the source), the
location is looked up in the location index under the derived
identifier. -/
def DocItem.into_entry (self : DocItem) (pfx category : String)
    (locs : String → Option String) : ManualEntry :=
  { pfx := pfx
    category := category
    location := locs (get_identifier pfx category self.name)
    name := self.name
    description := (splitParas self.comment.doc.data).map String.mk
    fn_type := Option.none
    exmpl := Option.none
    args := self.args }

/-- Lookup in the `Scope` map (a Rust `HashMap` built by `collect` from
an iterator of pairs, so a later pair with the same key overwrites an
earlier one): return the value of the last pair carrying the key. -/
def scopeGet (scope : List (String × ManualEntry)) (name : String) : Option ManualEntry :=
  (scope.reverse.find? fun p => p.1 == name).map fun p => p.2

/-- The `Scope` of `collect_entries` (main.rs:350-355): every direct
attrpath-value child of the let block that yields a `DocItem` is turned
into a named `ManualEntry`; inherit children and undocumented bindings
are dropped. -/
def buildScope : LetBindings → String → String → (String → Option String) →
    List (String × ManualEntry)
  | .nil, _, _, _ => []
  | .consAttrpathValue path doc value rest, pfx, category, locs =>
    (match collect_entry_information path doc value with
     | some di => [(di.name, di.into_entry pfx category locs)]
     | Option.none => []) ++ buildScope rest pfx category locs
  | .consInherit _ rest, pfx, category, locs => buildScope rest pfx category locs

/-- The entries contributed by one direct child of the attribute set
found by `collect_bindings` (main.rs:282-296): a documented
attrpath-value child becomes one entry; a sourced inherit
(`inh.from().is_some()`) is skipped; a bare inherit contributes the
scope entry of each inherited plain identifier. -/
def attr_child_entries (pfx category : String) (locs : String → Option String)
    (scope : List (String × ManualEntry)) : AttrChild → List ManualEntry
  | .attrpathValue path doc value =>
    match collect_entry_information path doc value with
    | some di => [di.into_entry pfx category locs]
    | Option.none => []
  | .inheritChild (.someE _) _ => []
  | .inheritChild .noneE attrs =>
    attrs.filterMap fun a =>
      match a with
      | .ident i => scopeGet scope i
      | .other _ => Option.none

/-- The loop of `collect_bindings` over the children of the attribute
set it found (main.rs:281-297). -/
def collectChildren (pfx category : String) (locs : String → Option String)
    (scope : List (String × ManualEntry)) : AttrChildren → List ManualEntry
  | .nil => []
  | .cons c rest =>
    attr_child_entries pfx category locs scope c
      ++ collectChildren pfx category locs scope rest

mutual

/-- The preorder scan of `collect_bindings` (main.rs:278): the first
`NODE_ATTR_SET` of the subtree, in preorder, with no subtree skipped. -/
def findAttrSet : Expr → Option AttrChildren
  | .ident _ => Option.none
  | .lit _ => Option.none
  | .app f a => (findAttrSet f).orElse fun _ => findAttrSet a
  | .lambda p body => (findAttrSetParam p).orElse fun _ => findAttrSet body
  | .letIn bs body => (findAttrSetLets bs).orElse fun _ => findAttrSet body
  | .attrSet cs => some cs

def findAttrSetParam : Param → Option AttrChildren
  | .identParam _ _ => Option.none
  | .pattern es => findAttrSetPats es

def findAttrSetPats : PatEntries → Option AttrChildren
  | .nil => Option.none
  | .cons _ _ .noneE rest => findAttrSetPats rest
  | .cons _ _ (.someE d) rest => (findAttrSet d).orElse fun _ => findAttrSetPats rest

def findAttrSetLets : LetBindings → Option AttrChildren
  | .nil => Option.none
  | .consAttrpathValue _ _ v rest => (findAttrSet v).orElse fun _ => findAttrSetLets rest
  | .consInherit .noneE rest => findAttrSetLets rest
  | .consInherit (.someE s) rest => (findAttrSet s).orElse fun _ => findAttrSetLets rest

end

/-- `collect_bindings` (main.rs:271): preorder-scan the given node for
the first attribute set and turn its direct children into entries,
resolving bare inherits against the given scope; no attribute set means
no entries. -/
def collect_bindings (node : Expr) (pfx category : String)
    (locs : String → Option String) (scope : List (String × ManualEntry)) :
    List ManualEntry :=
  match findAttrSet node with
  | some children => collectChildren pfx category locs scope children
  | Option.none => []

/-- `find_let_binding` (main.rs:309): the first attrpath-value entry of
the let block whose path prints as the wanted name; its value is
returned (the source then reads `apv.value()`). -/
def find_let_binding : LetBindings → String → Option Expr
  | .nil, _ => Option.none
  | .consAttrpathValue path _ value rest, name =>
    if path = name then some value else find_let_binding rest name
  | .consInherit _ rest, name => find_let_binding rest name

/-- `resolve_let_ident` (main.rs:323): follow identifier-valued bindings
of the let block.  The source recursion carries no visited set and no
bound, so the embedding takes fuel; the outer `Option` is `Option.none`
exactly when the fuel is exhausted (at every fuel bound, this means the
source diverges), while the inner `Option` is the source's return value
(`Option.none` for an unresolved name). -/
def resolve_let_ident (fuel : Nat) (bindings : LetBindings) (name : String) :
    Option (Option Expr) :=
  match fuel with
  | 0 => Option.none
  | fuel' + 1 =>
    match find_let_binding bindings name with
    | Option.none => some Option.none
    | some value =>
      match value with
      | .ident inner => resolve_let_ident fuel' bindings inner
      | _ => some (some value)

/-- The shape found by the scan of `collect_entries` (main.rs:343-376):
the first let-in or attribute set of the root, in preorder. -/
inductive Shape where
  | letS (bindings : LetBindings) (body : Expr)
  | attrS (children : AttrChildren)

/-- The scan of `collect_entries` never finds a shape inside a lambda
parameter: an identifier parameter contains only its identifier, and a
`NODE_PATTERN` subtree is skipped entirely (`preorder.skip_subtree()`,
main.rs:345-347), so shapes inside pattern defaults are never
selected. -/
def findShapeParam : Param → Option Shape
  | .identParam _ _ => Option.none
  | .pattern _ => Option.none

/-- The preorder scan of `collect_entries` (main.rs:342-379): the first
`NODE_LET_IN` or `NODE_ATTR_SET` of the root, skipping pattern
subtrees. -/
def findShape : Expr → Option Shape
  | .ident _ => Option.none
  | .lit _ => Option.none
  | .app f a => (findShape f).orElse fun _ => findShape a
  | .lambda p body => (findShapeParam p).orElse fun _ => findShape body
  | .letIn bs body => some (.letS bs body)
  | .attrSet cs => some (.attrS cs)

/-- What `collect_entries` does with the shape its scan found
(main.rs:348-376): an attribute set is handed to `collect_bindings`
with an empty scope; for a let-in, the scope is built from the let
block, an export list short-circuits to the named scope entries in list
order, an identifier body is resolved through the let bindings (the
divergence of `resolve_let_ident` propagates as `Option.none`), and
otherwise the body is handed to `collect_bindings` under the scope. -/
def collect_entries_core (fuel : Nat) (shape : Option Shape) (pfx category : String)
    (locs : String → Option String) (exports : Option (List String)) :
    Option (List ManualEntry) :=
  match shape with
  | Option.none => some []
  | some (.attrS children) =>
    some (collect_bindings (.attrSet children) pfx category locs [])
  | some (.letS bindings body) =>
    let scope := buildScope bindings pfx category locs
    match exports with
    | some names => some (names.filterMap fun name => scopeGet scope name)
    | Option.none =>
      match body with
      | .ident name =>
        match resolve_let_ident fuel bindings name with
        | Option.none => Option.none
        | some (some resolved) =>
          some (collect_bindings resolved pfx category locs scope)
        | some Option.none =>
          some (collect_bindings (.ident name) pfx category locs scope)
      | _ => some (collect_bindings body pfx category locs scope)

/-- `collect_entries` (main.rs:335): scan the root for the first let-in
or attribute-set shape and process it; an empty result when neither
shape occurs.  `Option.none` (at every fuel) models the divergence of
the source on unbounded aliasing chains. -/
def collect_entries (fuel : Nat) (root : Expr) (pfx category : String)
    (locs : String → Option String) (exports : Option (List String)) :
    Option (List ManualEntry) :=
  collect_entries_core fuel (findShape root) pfx category locs exports

/-- The empty location index, used by the concrete examples. -/
def locs0 : String → Option String := fun _ => Option.none

/-! ## Auxiliary definitions used by the claim statements -/

/-- Number of leading (curried) lambda positions of an expression. -/
def lambdaDepth : Expr → Nat
  | .lambda _ body => 1 + lambdaDepth body
  | _ => 0

/-- The field names of a destructuring parameter, in source order. -/
def patNames : PatEntries → List String
  | .nil => []
  | .cons name _ _ rest => name :: patNames rest

/-- An entry has a documented origin: it is the rendering of a `DocItem`
obtained from some binding that carried a doc comment. -/
def EntryProvenance (pfx category : String) (locs : String → Option String)
    (e : ManualEntry) : Prop :=
  ∃ path raw value di,
    collect_entry_information path (some raw) value = some di
      ∧ e = di.into_entry pfx category locs

/-! ## Concrete example inputs -/

/-- The cyclic aliasing chain of `let x = y; y = x; in x`. -/
def cycBindings : LetBindings :=
  .consAttrpathValue "x" Option.none (.ident "y")
    (.consAttrpathValue "y" Option.none (.ident "x") .nil)

/-- `let x = y; y = x; in x`. -/
def exC1 : Expr := .letIn cycBindings (.ident "x")

/-- The single documented binding `f = 1` of the export-list example. -/
def exC2bindings : LetBindings :=
  .consAttrpathValue "f" (some "doc f") (.lit "1") .nil

/-- `let (doc) f = 1; in b` with `b` unbound: the body alone yields no
entries. -/
def exC2 : Expr := .letIn exC2bindings (.ident "b")

/-- The entry the export list `[f]` must return from `exC2`. -/
def fEntryC2 : ManualEntry :=
  ⟨"lib", "c", "f", Option.none, ["doc f"], Option.none, Option.none, []⟩

/-- `let inner = (attrset with documented g); in (inherit (inner) g)`:
the sourced inherit must contribute nothing. -/
def exC3 : Expr :=
  .letIn
    (.consAttrpathValue "inner" Option.none
      (.attrSet (.cons (.attrpathValue "g" (some "doc g") (.lit "1")) .nil)) .nil)
    (.attrSet (.cons (.inheritChild (.someE (.ident "inner")) [.ident "g"]) .nil))

/-- The let block of `let a = b; in a` with `b` unbound. -/
def exC4bindings : LetBindings :=
  .consAttrpathValue "a" Option.none (.ident "b") .nil

/-- `let a = b; in a` with `b` unbound. -/
def exC4 : Expr := .letIn exC4bindings (.ident "a")

/-- The outermost parameter of the function `a: (pattern b c): d: x`. -/
def exC5param : Param := .identParam "a" Option.none

/-- The rest of the function `a: (pattern b c): d: x` after the first
parameter. -/
def exC5body : Expr :=
  .lambda (.pattern (.cons "b" Option.none .noneE (.cons "c" Option.none .noneE .nil)))
    (.lambda (.identParam "d" Option.none) (.lit "x"))

/-- An attribute set whose single binding `f = 1` carries an empty doc
comment. -/
def exC7 : Expr :=
  .attrSet (.cons (.attrpathValue "f" (some "") (.lit "1")) .nil)

/-- The entry the engine produces for `exC7`: empty description. -/
def fEntryC7 : ManualEntry :=
  ⟨"lib", "c", "f", Option.none, [""], Option.none, Option.none, []⟩

/-- An attribute set whose single binding `h = 1` is documented. -/
def exC7w : Expr :=
  .attrSet (.cons (.attrpathValue "h" (some "doc h") (.lit "1")) .nil)

/-- The entry the engine produces for `exC7w`. -/
def fEntryC7w : ManualEntry :=
  ⟨"lib", "c", "h", Option.none, ["doc h"], Option.none, Option.none, []⟩

/-- A lambda whose pattern parameter hides an attribute set with a
documented binding inside a field default; the body contains no shape. -/
def exC8pat : Expr :=
  .lambda
    (.pattern (.cons "a" Option.none
      (.someE (.attrSet (.cons (.attrpathValue "f" (some "doc") (.lit "1")) .nil)))
      .nil))
    (.lit "z")

/-- Two attribute sets side by side under an application node: the scan
must act on the first one only. -/
def exC8first : Expr :=
  .app
    (.attrSet (.cons (.attrpathValue "f" (some "first doc") (.lit "1")) .nil))
    (.attrSet (.cons (.attrpathValue "g" (some "second doc") (.lit "2")) .nil))

/-- The entry of the first attribute set of `exC8first`. -/
def fEntryC8 : ManualEntry :=
  ⟨"lib", "c", "f", Option.none, ["first doc"], Option.none, Option.none, []⟩

/-- Two documented bindings named `f` in one let block: `one` first,
`two` second. -/
def exC10bindings : LetBindings :=
  .consAttrpathValue "f" (some "one") (.lit "1")
    (.consAttrpathValue "f" (some "two") (.lit "2") .nil)

/-- The duplicate-name let with an opaque body (export mode ignores the
body). -/
def exC10 : Expr := .letIn exC10bindings (.lit "z")

/-- The duplicate-name let whose body re-exports `f` via a bare
inherit. -/
def exC10inh : Expr :=
  .letIn exC10bindings (.attrSet (.cons (.inheritChild .noneE [.ident "f"]) .nil))

/-- The entry of the second (last) binding `f` of `exC10bindings`. -/
def fEntryC10 : ManualEntry :=
  ⟨"lib", "c", "f", Option.none, ["two"], Option.none, Option.none, []⟩

/-! ## Helper lemmas -/

/-- The paragraph splitter never produces an empty list of pieces. -/
theorem splitParas_ne_nil (l : List Char) : splitParas l ≠ [] := by
  induction l using splitParas.induct with
  | case1 => simp [splitParas]
  | case2 rest ih => simp [splitParas]
  | case3 c rest h heq ih => rw [splitParas.eq_3 c rest h, heq]; simp
  | case4 c rest h p ps heq ih => rw [splitParas.eq_3 c rest h, heq]; simp

/-- Pushing a character onto the first paragraph commutes with
re-joining. -/
theorem intercalateParas_cons_cons (c : Char) (p : List Char) (ps : List (List Char)) :
    intercalateParas ((c :: p) :: ps) = c :: intercalateParas (p :: ps) := by
  cases ps with
  | nil => rfl
  | cons q qs => simp [intercalateParas]

/-- Re-joining the paragraphs with blank-line separators restores the
original character list. -/
theorem intercalateParas_splitParas (l : List Char) :
    intercalateParas (splitParas l) = l := by
  induction l using splitParas.induct with
  | case1 => rfl
  | case2 rest ih =>
    rw [splitParas.eq_2]
    have hne := splitParas_ne_nil rest
    cases hsp : splitParas rest with
    | nil => exact absurd hsp hne
    | cons p ps =>
      rw [hsp] at ih
      simp [intercalateParas, ih, hsp]
  | case3 c rest h heq ih => exact absurd heq (splitParas_ne_nil rest)
  | case4 c rest h p ps heq ih =>
    rw [splitParas.eq_3 c rest h, heq]
    rw [heq] at ih
    show intercalateParas ((c :: p) :: ps) = c :: rest
    rw [intercalateParas_cons_cons, ih]

/-- Rebuilding a string from its character list is the identity. -/
theorem string_mk_data (s : String) : String.mk s.data = s := by
  cases s
  rfl

/-- Shifting the headings of the empty string gives the empty string,
whatever the shift amount. -/
theorem shift_headings_empty (amount : Nat) : shift_headings "" amount = "" := rfl

/-- The walker emits exactly one `Argument` per curried parameter
position. -/
theorem collect_lambda_args_length : ∀ (p : Param) (body : Expr),
    (collect_lambda_args p body).length = 1 + lambdaDepth body
  | p, .lambda p2 b2 => by
    simp [collect_lambda_args, lambdaDepth, collect_lambda_args_length p2 b2]
    omega
  | _, .ident _ => rfl
  | _, .lit _ => rfl
  | _, .app _ _ => rfl
  | _, .letIn _ _ => rfl
  | _, .attrSet _ => rfl

/-- The walker keeps pattern field names in source order. -/
theorem patternArgs_names : ∀ es : PatEntries,
    (patternArgs es).map (fun a => a.name) = patNames es
  | .nil => rfl
  | .cons n d dflt rest => by
    simp [patternArgs, patNames, patternArgs_names rest]

/-- The scan of `collect_entries` finds no shape inside a lambda
parameter, so scanning a lambda is scanning its body. -/
theorem findShape_lambda (p : Param) (body : Expr) :
    findShape (.lambda p body) = findShape body := by
  cases p <;> rfl

/-- An undocumented binding yields no `DocItem`. -/
theorem collect_entry_information_none (path : String) (value : Expr) :
    collect_entry_information path Option.none value = Option.none := rfl

/-- A key freshly appended to a scope wins every lookup for it: the
`HashMap` built by `collect` keeps the value of the last pair with a
given key. -/
theorem scopeGet_append_last (scope : List (String × ManualEntry))
    (k : String) (v : ManualEntry) :
    scopeGet (scope ++ [(k, v)]) k = some v := by
  simp [scopeGet, List.find?]

/-- Every pair of a built `Scope` carries an entry with a documented
origin. -/
theorem buildScope_provenance : ∀ (bindings : LetBindings) (pfx category : String)
    (locs : String → Option String) (p : String × ManualEntry),
    p ∈ buildScope bindings pfx category locs → EntryProvenance pfx category locs p.2
  | .nil, _, _, _, _, hp => absurd hp (List.not_mem_nil _)
  | .consAttrpathValue path doc value rest, pfx, category, locs, p, hp => by
    rw [buildScope] at hp
    rcases List.mem_append.mp hp with hl | hr
    · cases doc with
      | none => rw [collect_entry_information_none] at hl; exact absurd hl (List.not_mem_nil _)
      | some raw =>
        cases hcei : collect_entry_information path (some raw) value with
        | none => rw [hcei] at hl; exact absurd hl (List.not_mem_nil _)
        | some di =>
          rw [hcei] at hl
          rcases List.mem_singleton.mp hl with rfl
          exact ⟨path, raw, value, di, hcei, rfl⟩
    · exact buildScope_provenance rest pfx category locs p hr
  | .consInherit src rest, pfx, category, locs, p, hp => by
    rw [buildScope] at hp
    exact buildScope_provenance rest pfx category locs p hp

/-- Every successful lookup in a built `Scope` has a documented
origin. -/
theorem scopeGet_buildScope_provenance (bindings : LetBindings) (pfx category : String)
    (locs : String → Option String) (k : String) (e : ManualEntry)
    (h : scopeGet (buildScope bindings pfx category locs) k = some e) :
    EntryProvenance pfx category locs e := by
  unfold scopeGet at h
  cases hf : (buildScope bindings pfx category locs).reverse.find? fun p => p.1 == k with
  | none => rw [hf] at h; exact absurd h (by simp)
  | some p =>
    rw [hf] at h
    have hmem : p ∈ (buildScope bindings pfx category locs).reverse := List.mem_of_find?_eq_some hf
    have hmem' : p ∈ buildScope bindings pfx category locs := List.mem_reverse.mp hmem
    have := buildScope_provenance bindings pfx category locs p hmem'
    simpa [← Option.some_inj.mp h] using this

/-- Every entry contributed by one attribute-set child has a documented
origin, provided every entry of the ambient scope has one. -/
theorem attr_child_entries_provenance (pfx category : String)
    (locs : String → Option String) (scope : List (String × ManualEntry))
    (hs : ∀ k e, scopeGet scope k = some e → EntryProvenance pfx category locs e)
    (c : AttrChild) (e : ManualEntry)
    (he : e ∈ attr_child_entries pfx category locs scope c) :
    EntryProvenance pfx category locs e := by
  cases c with
  | attrpathValue path doc value =>
    cases doc with
    | none =>
      rw [attr_child_entries, collect_entry_information_none] at he
      exact absurd he (List.not_mem_nil _)
    | some raw =>
      rw [attr_child_entries] at he
      cases hcei : collect_entry_information path (some raw) value with
      | none => rw [hcei] at he; exact absurd he (List.not_mem_nil _)
      | some di =>
        rw [hcei] at he
        rcases List.mem_singleton.mp he with rfl
        exact ⟨path, raw, value, di, hcei, rfl⟩
  | inheritChild src attrs =>
    cases src with
    | someE s => rw [attr_child_entries] at he; exact absurd he (List.not_mem_nil _)
    | noneE =>
      rw [attr_child_entries] at he
      rcases List.mem_filterMap.mp he with ⟨a, _, ha⟩
      cases a with
      | ident i => exact hs i e ha
      | other s => exact absurd ha (by simp)

/-- Every entry contributed by the children of the found attribute set
has a documented origin, provided every entry of the ambient scope has
one. -/
theorem collectChildren_provenance (pfx category : String)
    (locs : String → Option String) (scope : List (String × ManualEntry))
    (hs : ∀ k e, scopeGet scope k = some e → EntryProvenance pfx category locs e) :
    ∀ (children : AttrChildren) (e : ManualEntry),
    e ∈ collectChildren pfx category locs scope children →
    EntryProvenance pfx category locs e
  | .nil, e, he => absurd he (List.not_mem_nil _)
  | .cons c rest, e, he => by
    rw [collectChildren] at he
    rcases List.mem_append.mp he with hl | hr
    · exact attr_child_entries_provenance pfx category locs scope hs c e hl
    · exact collectChildren_provenance pfx category locs scope hs rest e hr

/-- Every entry returned by `collect_bindings` has a documented origin,
provided every entry of the ambient scope has one. -/
theorem collect_bindings_provenance (node : Expr) (pfx category : String)
    (locs : String → Option String) (scope : List (String × ManualEntry))
    (hs : ∀ k e, scopeGet scope k = some e → EntryProvenance pfx category locs e)
    (e : ManualEntry) (he : e ∈ collect_bindings node pfx category locs scope) :
    EntryProvenance pfx category locs e := by
  unfold collect_bindings at he
  cases hf : findAttrSet node with
  | none => rw [hf] at he; exact absurd he (List.not_mem_nil _)
  | some children =>
    rw [hf] at he
    exact collectChildren_provenance pfx category locs scope hs children e he

/-- On the cyclic chain `let x = y; y = x; in x`, the alias resolution
exhausts every fuel bound, from either starting name. -/
theorem resolve_cyc_pair (fuel : Nat) :
    resolve_let_ident fuel cycBindings "x" = Option.none
      ∧ resolve_let_ident fuel cycBindings "y" = Option.none := by
  induction fuel with
  | zero => exact ⟨rfl, rfl⟩
  | succ n ih =>
    refine ⟨?_, ?_⟩
    · calc resolve_let_ident (n + 1) cycBindings "x"
          = resolve_let_ident n cycBindings "y" := rfl
        _ = Option.none := ih.2
    · calc resolve_let_ident (n + 1) cycBindings "y"
          = resolve_let_ident n cycBindings "x" := rfl
        _ = Option.none := ih.1

/-- A let-in with an identifier body on which the alias resolution
exhausts its fuel makes `collect_entries` exhaust that fuel too. -/
theorem collect_entries_ident_body_diverges (fuel : Nat) (bindings : LetBindings)
    (name : String) (pfx category : String) (locs : String → Option String)
    (h : resolve_let_ident fuel bindings name = Option.none) :
    collect_entries fuel (.letIn bindings (.ident name)) pfx category locs Option.none
      = Option.none := by
  unfold collect_entries
  simp only [findShape, collect_entries_core, h]

/-! ## Claims -/

/-- C1: the claim states that resolving a bare-identifier let body
against the let block's own bindings tracks visited names and terminates
on every input, including the cyclic chain `let x = y; y = x; in x`.
The code does not: `resolve_let_ident` (main.rs:322-333) carries no
visited set and recurses through identifier-valued bindings unboundedly,
so on the cyclic chain the resolution — and with it `collect_entries` —
exhausts every fuel bound, i.e. the source recursion never terminates. -/
theorem c1_cyclic_alias_chain_diverges (fuel : Nat) :
    resolve_let_ident fuel cycBindings "x" = Option.none
      ∧ collect_entries fuel exC1 "lib" "c" locs0 Option.none = Option.none :=
  ⟨(resolve_cyc_pair fuel).1,
    collect_entries_ident_body_diverges fuel cycBindings "x" "lib" "c" locs0
      (resolve_cyc_pair fuel).1⟩

/-- C2: with an explicit export list and a let-in found first,
`collect_entries` returns exactly the named entries present in the let
block's scope, in export-list order (absent names silently omitted),
without consulting the let body; concretely, exporting `f` from
`let (doc) f = 1; in b` returns `f` although the body alone yields
nothing. -/
theorem c2_export_list_returns_scope_entries (fuel : Nat) :
    (∀ (root : Expr) (bindings : LetBindings) (body : Expr)
        (pfx category : String) (locs : String → Option String) (names : List String),
      findShape root = some (Shape.letS bindings body) →
      collect_entries fuel root pfx category locs (some names)
        = some (names.filterMap fun n => scopeGet (buildScope bindings pfx category locs) n))
    ∧ collect_entries fuel exC2 "lib" "c" locs0 (some ["f"]) = some [fEntryC2]
    ∧ collect_entries 1 exC2 "lib" "c" locs0 Option.none = some [] := by
  refine ⟨?_, rfl, rfl⟩
  intro root bindings body pfx category locs names h
  unfold collect_entries
  rw [h]
  rfl

/-- C2 witness: exporting `[f, zzz]` from `exC2` returns exactly the `f`
entry; the absent name `zzz` is silently omitted. -/
theorem c2_export_list_returns_scope_entries_witness :
    collect_entries 1 exC2 "lib" "c" locs0 (some ["f", "zzz"]) = some [fEntryC2] := by
  rw [(c2_export_list_returns_scope_entries 1).1 exC2 exC2bindings (.ident "b")
    "lib" "c" locs0 ["f", "zzz"] rfl]
  rfl

/-- C3: a sourced inherit contributes no entry; a bare inherit
contributes, per inherited identifier, the entry bound to that name in
the scope passed down from the enclosing let-in; when the attribute set
is the first shape found, that scope is empty, so bare inherits
contribute nothing; and the example
`let inner = (doc g = 1); in (inherit (inner) g)` yields zero
entries. -/
theorem c3_inherit_resolution :
    (∀ (pfx category : String) (locs : String → Option String)
        (scope : List (String × ManualEntry)) (src : Expr) (attrs : List InhAttr),
      attr_child_entries pfx category locs scope (.inheritChild (.someE src) attrs) = [])
    ∧ (∀ (pfx category : String) (locs : String → Option String)
        (scope : List (String × ManualEntry)) (attrs : List InhAttr),
      attr_child_entries pfx category locs scope (.inheritChild .noneE attrs)
        = attrs.filterMap fun a =>
            match a with
            | .ident i => scopeGet scope i
            | .other _ => Option.none)
    ∧ (∀ (fuel : Nat) (children : AttrChildren) (pfx category : String)
        (locs : String → Option String),
      collect_entries fuel (.attrSet children) pfx category locs Option.none
        = some (collectChildren pfx category locs [] children))
    ∧ (∀ name : String, scopeGet [] name = Option.none)
    ∧ (∀ fuel : Nat, collect_entries fuel exC3 "lib" "c" locs0 Option.none = some []) := by
  refine ⟨fun _ _ _ _ _ _ => rfl, fun _ _ _ _ _ => rfl, fun _ _ _ _ _ => rfl,
    fun _ => rfl, fun _ => rfl⟩

/-- C4: a let-in whose bare-identifier body does not resolve through the
let block's bindings produces zero entries rather than an error;
concretely `let a = b; in a` with `b` unbound yields the empty list. -/
theorem c4_unresolved_let_body_yields_empty :
    (∀ (fuel : Nat) (bindings : LetBindings) (name : String)
        (pfx category : String) (locs : String → Option String),
      resolve_let_ident fuel bindings name = some Option.none →
      collect_entries fuel (.letIn bindings (.ident name)) pfx category locs Option.none
        = some [])
    ∧ (∀ fuel : Nat, 2 ≤ fuel →
      collect_entries fuel exC4 "lib" "c" locs0 Option.none = some []) := by
  constructor
  · intro fuel bindings name pfx category locs h
    unfold collect_entries
    simp only [findShape, collect_entries_core, h]
    rfl
  · intro fuel hfuel
    obtain ⟨n, rfl⟩ : ∃ n, fuel = n + 2 := ⟨fuel - 2, by omega⟩
    rfl

/-- C4 witness: at fuel 2 the unresolved example concretely yields the
empty list. -/
theorem c4_unresolved_let_body_yields_empty_witness :
    collect_entries 2 exC4 "lib" "c" locs0 Option.none = some [] :=
  c4_unresolved_let_body_yields_empty.1 2 exC4bindings "a" "lib" "c" locs0 rfl

/-- C5: the Argument Walker follows the chain of nested
single-parameter lambdas and emits exactly one `Argument` per parameter
position, outermost first; an identifier parameter yields `Flat`, a
destructuring parameter yields `Pattern` with one `SingleArg` per field
in source order; the function `a: (pattern of b, c): d: x` yields
exactly `Flat a`, `Pattern (b, c)`, `Flat d`. -/
theorem c5_argument_walker_one_argument_per_position :
    (∀ (p : Param) (body : Expr),
      (collect_lambda_args p body).length = 1 + lambdaDepth body)
    ∧ (∀ es : PatEntries, (patternArgs es).map (fun a => a.name) = patNames es)
    ∧ collect_lambda_args exC5param exC5body
        = [.flat ⟨"a", Option.none⟩,
           .pattern [⟨"b", Option.none⟩, ⟨"c", Option.none⟩],
           .flat ⟨"d", Option.none⟩] :=
  ⟨collect_lambda_args_length, patternArgs_names, by decide⟩

/-- C6 counterexample: the claim states that the Comment Normalizer
never returns an empty documentation string and returns nothing for a
doc comment that is blank after stripping.  On the blank doc comment
consisting of a single space, `retrieve_doc_comment` (main.rs:157-169)
returns `some` of the empty string, because the source maps over the
located comment and replaces the blank normalization by
`String::new()`. -/
theorem c6_counterexample_blank_comment_yields_empty_string :
    retrieve_doc_comment (some " ") (some 2) = some ""
      ∧ retrieve_doc_comment (some " ") (some 2) ≠ Option.none := by
  constructor
  · decide
  · decide

/-- C6 amended: `retrieve_doc_comment` returns nothing exactly when no
doc comment precedes the node; when a doc comment is present it always
returns a string — the empty string when the comment is blank after
stripping and re-indentation. -/
theorem c6_amended_normalizer_blank_behavior :
    (∀ shiftBy : Option Nat, retrieve_doc_comment Option.none shiftBy = Option.none)
    ∧ (∀ (raw : String) (shiftBy : Option Nat),
      handle_indentation raw = Option.none →
      retrieve_doc_comment (some raw) shiftBy = some "")
    ∧ (∀ (raw : String) (shiftBy : Option Nat), ∃ s,
      retrieve_doc_comment (some raw) shiftBy = some s) := by
  refine ⟨fun _ => rfl, ?_, fun raw shiftBy => ⟨_, rfl⟩⟩
  intro raw shiftBy h
  show some (shift_headings ((handle_indentation raw).getD "") (shiftBy.getD 2)) = some ""
  rw [h, Option.getD_none, shift_headings_empty]

/-- C6 amended witness: a whitespace-only doc comment concretely
normalizes to `some` of the empty string. -/
theorem c6_amended_normalizer_blank_behavior_witness :
    retrieve_doc_comment (some "\n  \n") (some 1) = some "" :=
  c6_amended_normalizer_blank_behavior.2.1 "\n  \n" (some 1) (by decide)

/-- C8: `collect_entries` scans the root in preorder, never selecting a
shape inside a lambda parameter (pattern subtrees are skipped whole),
acts on the first let-in or attribute-set shape encountered, and
returns the empty list when neither shape occurs; concretely, an
attribute set hidden in a pattern default is ignored, and of two
attribute sets the first contributes the entries. -/
theorem c8_preorder_scan_first_shape :
    (∀ (fuel : Nat) (p : Param) (body : Expr) (pfx category : String)
        (locs : String → Option String) (exports : Option (List String)),
      collect_entries fuel (.lambda p body) pfx category locs exports
        = collect_entries fuel body pfx category locs exports)
    ∧ (∀ (fuel : Nat) (root : Expr) (pfx category : String)
        (locs : String → Option String) (exports : Option (List String)),
      findShape root = Option.none →
      collect_entries fuel root pfx category locs exports = some [])
    ∧ (∀ fuel : Nat, collect_entries fuel exC8pat "lib" "c" locs0 Option.none = some [])
    ∧ (∀ fuel : Nat,
      collect_entries fuel exC8first "lib" "c" locs0 Option.none = some [fEntryC8]) := by
  refine ⟨?_, ?_, fun _ => rfl, fun _ => rfl⟩
  · intro fuel p body pfx category locs exports
    unfold collect_entries
    rw [findShape_lambda]
  · intro fuel root pfx category locs exports h
    unfold collect_entries
    rw [h]
    rfl

/-- C8 witness: a tree containing neither a let-in nor an attribute set
concretely yields the empty list. -/
theorem c8_preorder_scan_first_shape_witness :
    collect_entries 3 (.app (.ident "h") (.lit "q")) "lib" "c" locs0 Option.none
      = some [] :=
  c8_preorder_scan_first_shape.2.1 3 (.app (.ident "h") (.lit "q")) "lib" "c" locs0
    Option.none rfl

/-- C9: the description of a rendered entry is the doc comment split on
blank lines into ordered paragraphs, and the paragraphs re-joined with
blank-line separators reproduce the comment body exactly; concretely a
two-paragraph comment splits into its two paragraphs. -/
theorem c9_description_is_blank_line_paragraphs :
    (∀ (item : DocItem) (pfx category : String) (locs : String → Option String),
      (item.into_entry pfx category locs).description
          = (splitParas item.comment.doc.data).map String.mk
        ∧ joinParas ((item.into_entry pfx category locs).description)
          = item.comment.doc)
    ∧ (DocItem.into_entry ⟨"n", ⟨"p1\n\np2"⟩, []⟩ "lib" "c" locs0).description
        = ["p1", "p2"] := by
  refine ⟨?_, by decide⟩
  intro item pfx category locs
  refine ⟨rfl, ?_⟩
  show joinParas ((splitParas item.comment.doc.data).map String.mk) = item.comment.doc
  unfold joinParas
  rw [List.map_map]
  have hcomp : (String.data ∘ String.mk) = id := rfl
  rw [hcomp, List.map_id, intercalateParas_splitParas, string_mk_data]

/-- C10: when the first let-in contains several documented bindings with
the same name, the scope keeps the entry of the last one in source
order (the `HashMap` built by `collect` overwrites on duplicate keys),
so export-list lookups and bare inherit resolution return the last
binding's entry. -/
theorem c10_duplicate_names_last_binding_wins :
    (∀ (scope : List (String × ManualEntry)) (k : String) (v : ManualEntry),
      scopeGet (scope ++ [(k, v)]) k = some v)
    ∧ scopeGet (buildScope exC10bindings "lib" "c" locs0) "f" = some fEntryC10
    ∧ (∀ fuel : Nat,
      collect_entries fuel exC10 "lib" "c" locs0 (some ["f"]) = some [fEntryC10])
    ∧ (∀ fuel : Nat,
      collect_entries fuel exC10inh "lib" "c" locs0 Option.none = some [fEntryC10]) :=
  ⟨scopeGet_append_last, rfl, fun _ => rfl, fun _ => rfl⟩

/-- C7 counterexample: the claim states that a binding whose doc comment
is empty never gives rise to an entry.  An attribute-set binding
carrying an empty doc comment concretely produces one entry, with an
empty description: `retrieve_doc_item` (main.rs:211-222) only requires
`retrieve_doc_comment` to return `some`, which it does for a blank
comment. -/
theorem c7_counterexample_empty_doc_comment_creates_entry :
    collect_entries 1 exC7 "lib" "c" locs0 Option.none = some [fEntryC7]
      ∧ fEntryC7.description = [""] := by
  constructor
  · decide
  · decide

/-- C7 amended: every entry produced by the extraction pipeline
originates from a binding that carried a doc comment (whose normalized
body may be empty); a binding with no doc comment at all never gives
rise to an entry, in any resolution shape. -/
theorem c7_amended_every_entry_has_documented_origin
    (fuel : Nat) (root : Expr) (pfx category : String)
    (locs : String → Option String) (exports : Option (List String))
    (entries : List ManualEntry)
    (h : collect_entries fuel root pfx category locs exports = some entries) :
    ∀ e ∈ entries, EntryProvenance pfx category locs e := by
  intro e he
  unfold collect_entries collect_entries_core at h
  split at h
  · injection h with h'
    subst h'
    exact absurd he (List.not_mem_nil _)
  · injection h with h'
    subst h'
    refine collect_bindings_provenance _ pfx category locs [] ?_ e he
    intro k e' hke
    simp [scopeGet] at hke
  · next _ bindings body _ =>
    have hs : ∀ (k : String) (e' : ManualEntry),
        scopeGet (buildScope bindings pfx category locs) k = some e' →
        EntryProvenance pfx category locs e' :=
      fun k e' hk => scopeGet_buildScope_provenance bindings pfx category locs k e' hk
    split at h
    · next names =>
      injection h with h'
      subst h'
      rcases List.mem_filterMap.mp he with ⟨nm, _, hnm⟩
      exact hs nm e hnm
    · split at h
      · next name =>
        split at h
        · exact absurd h (by simp)
        · injection h with h'
          subst h'
          exact collect_bindings_provenance _ pfx category locs _ hs e he
        · injection h with h'
          subst h'
          exact collect_bindings_provenance _ pfx category locs _ hs e he
      · injection h with h'
        subst h'
        exact collect_bindings_provenance _ pfx category locs _ hs e he

/-- C7 amended witness: the entry produced for the documented binding
`h = 1` of `exC7w` concretely has a documented origin. -/
theorem c7_amended_every_entry_has_documented_origin_witness :
    EntryProvenance "lib" "c" locs0 fEntryC7w :=
  c7_amended_every_entry_has_documented_origin 1 exC7w "lib" "c" locs0 Option.none
    [fEntryC7w] rfl fEntryC7w (List.mem_singleton.mpr rfl)
